import Mathlib

/-!
Verification development for the numerical core of the `epstan` package
(`epstan/util.py`): the Gaussian parameter converter `invert_normal_params`,
the optimal linear shrinkage estimator `olse`, the control-variate moment
estimator `cv_moments`, and the group partitioner `distribute_groups`.

Floating-point arithmetic of the source is modelled exactly over `ℚ`;
machine integers over `ℤ`/`ℕ`.  The transcendental functions `exp` and `log`
(used by `cv_moments` only to form importance weights) are modelled as
abstract parameters `qexp`, `qlog : ℚ → ℚ`.  Python `ValueError`s are
modelled with `Except String`.
-/

open Matrix

/-! ### Generic list helpers used by the embedding of `distribute_groups` -/

/-- First index at which `upd current best` holds while scanning the list,
starting from index `i` with current best index `bi` and best value `bv`.
With `upd a b = (a < b)` this computes the first index of the minimum,
i.e. the value of Python `l.index(min(l))`; with `upd a b = (b < a)` the first
index of the maximum, i.e. `np.argmax(l)`. -/
def pickIdxAux {α : Type} (upd : α → α → Bool) : List α → ℕ → ℕ → α → ℕ
  | [], _, bi, _ => bi
  | a :: t, i, bi, bv =>
      if upd a bv then pickIdxAux upd t (i + 1) i a else pickIdxAux upd t (i + 1) bi bv

/-- Index of the first extremal element of a list (0 on the empty list). -/
def pickIdx {α : Type} (upd : α → α → Bool) : List α → ℕ
  | [] => 0
  | a :: t => pickIdxAux upd t 1 0 a

/-- Python `l.index(min(l))`: the first index of the minimal element. -/
def idxmin (l : List ℤ) : ℕ := pickIdx (fun a b => decide (a < b)) l

/-- NumPy `np.argmax(l)` on a float vector (floats modelled as `ℚ`):
the first index of the maximal element. -/
def idxmaxQ (l : List ℚ) : ℕ := pickIdx (fun a b => decide (b < a)) l

/-- Vector of sums of adjacent entries, `Nj[:-1] + Nj[1:]` in NumPy. -/
def adjSums (l : List ℤ) : List ℤ := List.zipWith (· + ·) l l.tail

/-! ### Embedding of `distribute_groups` (epstan/util.py, lines 540-639) -/

/-- State of the merging loop of the `K < J` branch of `distribute_groups`:
`Nk` is the current list of merged-group sizes, `Njd` the maintained list of
adjacent-pair sums, `Njk` the number of original groups in each current
merged group. -/
structure MergeState where
  Nk : List ℤ
  Njd : List ℤ
  Njk : List ℕ
deriving DecidableEq

/-- One iteration of the merging loop of `distribute_groups` (the body of
`for _ in range(J-K)`), translated statement by statement:
`ind = Njd.index(min(Njd))`; `Njd[ind+1] += Nk[ind]` when `ind+1 < len(Njd)`;
`Njd[ind-1] += Nk[ind+1]` when `ind > 0`; `Nk[ind] = Njd[ind]`;
`Nk.pop(ind+1)`; `Njd.pop(ind)`; `Nj_k[ind] += Nj_k[ind+1]`;
`Nj_k.pop(ind+1)`. -/
def mergeStep (s : MergeState) : MergeState :=
  let ind := idxmin s.Njd
  let njd1 :=
    if ind + 1 < s.Njd.length then
      s.Njd.set (ind + 1) (s.Njd.getD (ind + 1) 0 + s.Nk.getD ind 0)
    else s.Njd
  let njd2 :=
    if 0 < ind then
      njd1.set (ind - 1) (njd1.getD (ind - 1) 0 + s.Nk.getD (ind + 1) 0)
    else njd1
  ⟨(s.Nk.set ind (njd2.getD ind 0)).eraseIdx (ind + 1),
   njd2.eraseIdx ind,
   (s.Njk.set ind (s.Njk.getD ind 0 + s.Njk.getD (ind + 1) 0)).eraseIdx (ind + 1)⟩

/-- Embedding of the `j_ind_k` construction of the `K < J` branch
(epstan/util.py, lines 585 and 602-607): with the cumulative-sum bounds
`j_lim = concatenate(([0], cumsum(Nj)))` (so `j_lim[i]` is the sum of the
first `i` original group sizes) and `k_lim = concatenate(([0], cumsum(Nj_k)))`,
the loops `for k in range(K): for ji in range(Nj_k[k])` perform, in order,
the slice assignments `j_ind_k[j_lim[ki]:j_lim[ki+1]] = ji` where
`ki = ji + k_lim[k]`.  The uninitialised `np.empty(N)` buffer is modelled as
a zero-filled list of length `N = sum(Nj)`; for valid inputs every entry is
overwritten by the loop. -/
def jIndK (Nj : List ℤ) (Njk : List ℕ) : List ℕ :=
  let j_lim : ℕ → ℕ := fun i => ((Nj.take i).sum).toNat
  let k_lim : ℕ → ℕ := fun k => (Njk.take k).sum
  ((List.range Njk.length).flatMap fun k =>
      (List.range (Njk.getD k 0)).map fun ji => (k, ji)).foldl
    (fun arr kji =>
      arr.mapIdx fun i x =>
        if j_lim (kji.2 + k_lim kji.1) ≤ i ∧ i < j_lim (kji.2 + k_lim kji.1 + 1)
        then kji.2 else x)
    (List.replicate (Nj.sum).toNat 0)

/-- Sizes of the sites carved out of one group in the `K > J` branch:
`ppg[j]` parts of group `j`, the first `Nj[j] % ppg[j]` of size
`Nj[j] // ppg[j] + 1` and the rest of size `Nj[j] // ppg[j]`
(NumPy floor division; the divisor is positive, so `ℤ` division agrees). -/
def siteSizes (nj : ℤ) (p : ℕ) : List ℤ :=
  (List.range p).map fun kj : ℕ =>
    if (kj : ℤ) < nj % (p : ℤ) then nj / (p : ℤ) + 1 else nj / (p : ℤ)

/-- One iteration of the splitting loop of the `K > J` branch:
`cur_max = Nj2.argmax()`; `ppg[cur_max] += 1`;
`Nj2[cur_max] = Nj[cur_max] / ppg[cur_max]` (float division, modelled
exactly over `ℚ`). -/
def splitStep (Nj : List ℤ) (s : List ℕ × List ℚ) : List ℕ × List ℚ :=
  let c := idxmaxQ s.2
  let ppg := s.1.set c (s.1.getD c 0 + 1)
  (ppg, s.2.set c ((Nj.getD c 0 : ℚ) / (ppg.getD c 0 : ℚ)))

/-- Result of `distribute_groups`: the source returns `(Nk, Nj_k, j_ind_k)`
when `K < J`, `(Nj, None, None)` when `K == J`, and `(Nk, ppg, None)` when
`J < K ≤ N`. -/
inductive DGResult where
  | merge (Nk : List ℤ) (Njk : List ℕ) (jindk : List ℕ)
  | ident (Nk : List ℤ)
  | split (Nk : List ℤ) (ppg : List ℕ)
deriving DecidableEq

/-- Body of `distribute_groups` after the group-size argument has been
normalised to a list: the `np.any(Nj <= 0)` check, the `K < 2` check and the
three computation branches, with the final `else` raising
"K cant be greater than number of samples". -/
def distributeGroupsChecked (J K : ℕ) (Nj : List ℤ) : Except String DGResult :=
  if ∃ x ∈ Nj, x ≤ 0 then .error "Every group must have at least one item"
  else if K < 2 then .error "K should be at least 2."
  else if K < J then
    let s := mergeStep^[J - K] ⟨Nj, adjSums Nj, List.replicate J 1⟩
    .ok (.merge s.Nk s.Njk (jIndK Nj s.Njk))
  else if K = J then .ok (.ident Nj)
  else if (K : ℤ) ≤ Nj.sum then
    let ppg := ((splitStep Nj)^[K - J] (List.replicate J 1, Nj.map (fun x : ℤ => (x : ℚ)))).1
    .ok (.split ((List.range J).flatMap fun j => siteSizes (Nj.getD j 0) (ppg.getD j 0)) ppg)
  else .error "K cant be greater than number of samples"

/-- Embedding of `distribute_groups(J, K, Nj)`.  The `Nj` argument is either
an integer (`isinstance(Nj, int)`, replaced by `Nj*np.ones(J)`) or a
one-dimensional array, checked to have length `J`. -/
def distribute_groups (J K : ℕ) (NjArg : ℤ ⊕ List ℤ) : Except String DGResult :=
  match NjArg with
  | Sum.inl n => distributeGroupsChecked J K (List.replicate J n)
  | Sum.inr Nj =>
      if Nj.length ≠ J then .error "Invalid shape of arg. Nj."
      else distributeGroupsChecked J K Nj

/-! ### Reference merging process (for claim C2)

The spec's description of the `K < J` branch: repeatedly replace the adjacent
pair of current groups whose combined size is smallest - the first such pair
on ties - by one merged group, tracking alongside how many original groups
each current group contains. -/

/-- Merging the pair at positions `i`, `i+1` of a list. -/
def mergeAt {α : Type} [Add α] (z : α) (l : List α) (i : ℕ) : List α :=
  (l.set i (l.getD i z + l.getD (i + 1) z)).eraseIdx (i + 1)

/-- One round of the reference process of claim C2: find the first adjacent
pair with smallest combined size and merge it, both in the size list and in
the original-group-count list. -/
def specMergeStep (p : List ℤ × List ℕ) : List ℤ × List ℕ :=
  let i := idxmin (adjSums p.1)
  (mergeAt 0 p.1 i, mergeAt 0 p.2 i)

/-! ### Embedding of `invert_normal_params` and `olse` over exact rationals -/

/-- Modelled from the spec: the missing cython routine `copy_triu_to_tril`
copies the upper triangle of a square matrix into the lower triangle
("only the upper triangle is produced by the inversion routine; the lower
triangle is explicitly copied from it"). -/
def copy_triu_to_tril {d : ℕ} (A : Matrix (Fin d) (Fin d) ℚ) :
    Matrix (Fin d) (Fin d) ℚ :=
  fun i j => if (i : ℕ) ≤ (j : ℕ) then A i j else A j i

/-- Computable inverse of a rational matrix, the exact-arithmetic model of the
LAPACK Cholesky-inverse pipeline (`cho_factor` + `dpotri`): on a matrix with
nonzero determinant it agrees with `Matrix.inv`. -/
def qinv {ι : Type} [Fintype ι] [DecidableEq ι] (A : Matrix ι ι ℚ) :
    Matrix ι ι ℚ :=
  A.det⁻¹ • A.adjugate

/-- Modelled from the spec: the missing cython routine `fro_norm_squared`,
the squared Frobenius norm of a matrix. -/
def froNormSq {ι κ : Type} [Fintype ι] [Fintype κ] (A : Matrix ι κ ℚ) : ℚ :=
  ∑ i, ∑ j, (A i j) ^ 2

/-- Embedding of `invert_normal_params(A, b)` (epstan/util.py, lines 51-125)
in exact arithmetic: the output matrix is the inverse of `A` with the upper
triangle mirrored into the lower one by `copy_triu_to_tril`, and the output
vector is the Cholesky solve `A⁻¹ b`.  The in-place/output-buffer variants
and the optional `b` are calling conventions without numerical content and
are not modelled. -/
def invert_normal_params {d : ℕ} (A : Matrix (Fin d) (Fin d) ℚ)
    (b : Fin d → ℚ) : Matrix (Fin d) (Fin d) ℚ × (Fin d → ℚ) :=
  (copy_triu_to_tril (qinv A), (qinv A).mulVec b)

/-- Embedding of `olse(S, n, P)` (epstan/util.py, lines 128-194): the sample
covariance is inverted in place through `invert_normal_params`, then shrunk
with the naive prior `I/d` (`P = None`) or a provided prior matrix `P`. -/
def olse {d : ℕ} (S : Matrix (Fin d) (Fin d) ℚ) (n : ℕ)
    (P : Option (Matrix (Fin d) (Fin d) ℚ)) : Matrix (Fin d) (Fin d) ℚ :=
  let out := copy_triu_to_tril (qinv S)
  let tr := out.trace
  let tr2 := tr ^ 2
  let f2 := froNormSq outᵀ
  match P with
  | none =>
      let alpha := 1 - ((d : ℚ) + tr2 / (f2 - tr2 / (d : ℚ))) / (n : ℚ)
      let beta := tr * (1 - (d : ℚ) / (n : ℚ) - alpha)
      alpha • out + (beta / (d : ℚ)) • (1 : Matrix (Fin d) (Fin d) ℚ)
  | some P =>
      let f2p := froNormSq Pᵀ
      let trSP := ∑ i, ∑ j, out i j * P i j
      let alpha := 1 - ((d : ℚ) + tr2 * f2p / (f2 * f2p - trSP ^ 2)) / (n : ℚ)
      let beta := (trSP / f2p) * (1 - (d : ℚ) / (n : ℚ) - alpha)
      alpha • out + beta • P

/-- A symmetric positive-definite rational matrix (the validity condition of
the spec for `invert_normal_params` and `olse` inputs). -/
def PosDefQ {d : ℕ} (A : Matrix (Fin d) (Fin d) ℚ) : Prop :=
  Aᵀ = A ∧ ∀ x : Fin d → ℚ, x ≠ 0 → 0 < x ⬝ᵥ A.mulVec x

/-! ### Embedding of `cv_moments` (epstan/util.py, lines 197-411) -/

/-- The module constant `_LOG_2PI = np.log(2*np.pi)`, as the float64 value. -/
def LOG_2PI : ℚ := 1.8378770664093453

/-- Pairs `(p, q)` with `p ≤ q`: index set of the packed (half-vectorized)
upper triangle of a `d × d` symmetric matrix; modelled from the spec's fixed
row-major upper-triangle ordering, it has `d*(d+1)/2` elements (the source's
`d2`). -/
abbrev TriIdx (d : ℕ) := { p : Fin d × Fin d // p.1 ≤ p.2 }

/-- Column means, `np.mean(samp, axis=0)`. -/
def npColMean {n d : ℕ} (samp : Matrix (Fin n) (Fin d) ℚ) : Fin d → ℚ :=
  fun j => (∑ i, samp i j) / (n : ℚ)

/-- Fraction of samples strictly below the reference mean in each dimension,
`np.sum(samp < m_tilde, axis=0)/n`. -/
def sampBelowFrac {n d : ℕ} (samp : Matrix (Fin n) (Fin d) ℚ)
    (m : Fin d → ℚ) : Fin d → ℚ :=
  fun j => ((Finset.univ.filter fun i : Fin n => samp i j < m j).card : ℚ) / (n : ℚ)

/-- Moment parameters of the control variate distribution used by
`cv_moments`: taken from the arguments when both `S_tilde` and `m_tilde` are
provided, otherwise both recomputed from the natural parameters through
`invert_normal_params(cho_tilde, r_tilde, cho_form=True)`. -/
def cvRefMoments {d : ℕ} (Q_tilde : Matrix (Fin d) (Fin d) ℚ)
    (r_tilde : Fin d → ℚ) (S_tilde : Option (Matrix (Fin d) (Fin d) ℚ))
    (m_tilde : Option (Fin d → ℚ)) :
    Matrix (Fin d) (Fin d) ℚ × (Fin d → ℚ) :=
  match S_tilde, m_tilde with
  | some S, some m => (S, m)
  | _, _ => (copy_triu_to_tril (qinv Q_tilde), (qinv Q_tilde).mulVec r_tilde)

/-- Embedding of `_cv_estim(f, h, Eh, opt, cov_k, var_k, ddof_f, ddof_h)`:
the control-variate estimate of the columnwise mean of `f` with control `h`
of known expectation `Eh`.  Columns are indexed by an arbitrary finite type
so that the same routine serves the mean (`ι = Fin d`) and the packed
covariance (`ι = TriIdx d`).  `linalg.solve(var_h, cov_fh)` is modelled as
multiplication by the exact inverse; the scaling factors `cov_k`, `var_k`
are applied only when nonzero (Python truthiness), as are the options
`regulate_a` and `max_a`.  Returns the estimate together with the fitted
coefficient `a` (a matrix for `multiple_cv`, a vector otherwise). -/
def cv_estim {n : ℕ} {ι : Type} [Fintype ι] [DecidableEq ι]
    (f h : Matrix (Fin n) ι ℚ) (Eh : ι → ℚ) (multiple_cv : Bool)
    (regulate_a max_a : Option ℚ) (cov_k var_k : ℚ) (ddof_f ddof_h : ℕ) :
    (ι → ℚ) × (Matrix ι ι ℚ ⊕ (ι → ℚ)) :=
  let out := fun j => (∑ i, f i j) / ((n : ℚ) - (ddof_f : ℚ))
  let fc : Matrix (Fin n) ι ℚ := fun i j => f i j - out j
  let hc : Matrix (Fin n) ι ℚ := fun i j => h i j - Eh j
  let hm := if ddof_h = 0 then (fun j => (∑ i, hc i j) / (n : ℚ))
            else (fun j => (∑ i, h i j) / ((n : ℚ) - (ddof_h : ℚ)) - Eh j)
  if multiple_cv then
    let var_h := (hcᵀ * hc)ᵀ
    let cov_fh := (fcᵀ * hc)ᵀ
    let cov_fh := if cov_k ≠ 0 then cov_k • cov_fh else cov_fh
    let var_h := if var_k ≠ 0 then var_k • var_h else var_h
    let a := qinv var_h * cov_fh
    let a := match regulate_a with
      | some rho => if rho ≠ 0 then rho • a else a
      | none => a
    let a := match max_a with
      | some mu => if mu ≠ 0 then
            (fun i j => min mu (max (-mu) (a i j)) : Matrix ι ι ℚ)
          else a
      | none => a
    (fun j => out j - (hm ᵥ* a) j, Sum.inl a)
  else
    let var_h := fun j => ∑ i, (hc i j) ^ 2
    let cov_fh := fun j => ∑ i, fc i j * hc i j
    let cov_fh := if cov_k ≠ 0 then (fun j => cov_k * cov_fh j) else cov_fh
    let var_h := if var_k ≠ 0 then (fun j => var_k * var_h j) else var_h
    let a := fun j => cov_fh j / var_h j
    let a := match regulate_a with
      | some rho => if rho ≠ 0 then (fun j => rho * a j) else a
      | none => a
    let a := match max_a with
      | some mu => if mu ≠ 0 then (fun j => min mu (max (-mu) (a j))) else a
      | none => a
    (fun j => out j - hm j * a j, Sum.inr a)

/-- Result of `cv_moments`, together with the final contents of the two
caller-owned input buffers (`final_samp`, `final_lp`), which the embedding
tracks explicitly so that in-place mutation of the inputs is observable.
The diagnostic outputs `a_S`, `a_m` (returned only under `ret_a=True`) are
not modelled. -/
structure CvResult (n d : ℕ) where
  S_hat : Matrix (Fin d) (Fin d) ℚ
  m_hat : Fin d → ℚ
  cv_used : Bool
  final_samp : Matrix (Fin n) (Fin d) ℚ
  final_lp : Fin n → ℚ
deriving DecidableEq

/-- The balance check of `cv_moments` (lines 353-358): Python truthiness of
`m_treshold` (`None` and `0.0` skip the check), the rewrite `t = 1 - t` for
`t < 0.5`, and the test whether in some dimension the fraction of samples
below the reference mean is above `t` or below `1 - t`. -/
def cvFallbackFlag {n d : ℕ} (samp : Matrix (Fin n) (Fin d) ℚ)
    (m_til : Fin d → ℚ) : Option ℚ → Bool
  | none => false
  | some t0 =>
      if t0 = 0 then false
      else
        let t := if t0 < 1 / 2 then 1 - t0 else t0
        decide ((∃ j, sampBelowFrac samp m_til j > t) ∨
                (∃ j, sampBelowFrac samp m_til j < 1 - t))

/-- Embedding of `cv_moments` in exact arithmetic.  `qexp` and `qlog` model
the floating-point `np.exp` and `np.log` (their values never influence the
threshold logic or the fallback outputs).  The samples are taken as a
two-dimensional `n × d` array (the source's reshape of one-dimensional input
is a calling convention).  The packed upper-triangle arrays built by the
missing cython routines `auto_outer`, `ravel_triu` and `unravel_triu` are
modelled from the spec over the index set `TriIdx d`. -/
def cv_moments {n d : ℕ} (qexp qlog : ℚ → ℚ)
    (samp : Matrix (Fin n) (Fin d) ℚ) (lp : Fin n → ℚ)
    (Q_tilde : Matrix (Fin d) (Fin d) ℚ) (r_tilde : Fin d → ℚ)
    (S_tilde : Option (Matrix (Fin d) (Fin d) ℚ)) (m_tilde : Option (Fin d → ℚ))
    (ldet_Q_tilde : Option ℚ) (multiple_cv : Bool)
    (regulate_a max_a : Option ℚ) (m_treshold : Option ℚ) : CvResult n d :=
  let Sm := cvRefMoments Q_tilde r_tilde S_tilde m_tilde
  let S_til := Sm.1
  let m_til := Sm.2
  let const :=
    (match ldet_Q_tilde with
      | some c => c
      | none => qlog Q_tilde.det / 2) - (d : ℚ) / 2 * LOG_2PI
  let dev_tilde : Matrix (Fin n) (Fin d) ℚ := fun i j => samp i j - m_til j
  let lp_tilde : Fin n → ℚ := fun i =>
    const - (∑ j, (∑ k, dev_tilde i k * Q_tilde k j) * dev_tilde i j) / 2
  let pr : Fin n → ℚ := fun i => qexp (lp_tilde i - lp i)
  let f := samp
  let h : Matrix (Fin n) (Fin d) ℚ := fun i j => samp i j * pr i
  let fallback : Bool := cvFallbackFlag samp m_til m_treshold
  if fallback then
    let m_hat := npColMean samp
    let samp2 : Matrix (Fin n) (Fin d) ℚ := fun i j => samp i j - m_hat j
    let S_hat : Matrix (Fin d) (Fin d) ℚ := fun a b =>
      (∑ i, samp2 i a * samp2 i b) / ((n : ℚ) - 1)
    ⟨S_hat, m_hat, false, samp2, lp⟩
  else
    let em := cv_estim f h m_til multiple_cv regulate_a max_a
      (n : ℚ) ((n : ℚ) - 1) 0 0
    let m_hat := em.1
    let h2 : Matrix (Fin n) (TriIdx d) ℚ := fun i pq =>
      dev_tilde i pq.1.1 * dev_tilde i pq.1.2 * pr i
    let Eh2 : TriIdx d → ℚ := fun pq => S_tilᵀ pq.1.1 pq.1.2
    let dev : Matrix (Fin n) (Fin d) ℚ := fun i j => samp i j - m_hat j
    let f2 : Matrix (Fin n) (TriIdx d) ℚ := fun i pq => dev i pq.1.1 * dev i pq.1.2
    let es := cv_estim f2 h2 Eh2 multiple_cv regulate_a max_a
      ((n : ℚ) ^ 2) (((n : ℚ) - 1) ^ 2) 1 0
    let d2vec := es.1
    let S_hat : Matrix (Fin d) (Fin d) ℚ := fun a b =>
      if hab : a ≤ b then d2vec ⟨(a, b), hab⟩ else d2vec ⟨(b, a), le_of_not_le hab⟩
    ⟨S_hat, m_hat, true, samp, lp⟩

/-! ### Definitions used in claim statements -/

/-- Per-site sample count list of a `distribute_groups` result (the first
returned array in every branch). -/
def resNk : DGResult → List ℤ
  | .merge Nk _ _ => Nk
  | .ident Nk => Nk
  | .split Nk _ => Nk

/-- The unbiased sample covariance of the rows of `samp`: sum of products of
deviations from the column means, divided by `n - 1`. -/
def sampleCovUnbiased {n d : ℕ} (samp : Matrix (Fin n) (Fin d) ℚ) :
    Matrix (Fin d) (Fin d) ℚ :=
  fun a b =>
    (∑ i, (samp i a - npColMean samp a) * (samp i b - npColMean samp b)) /
      ((n : ℚ) - 1)

/-! ### List index helper lemmas -/

theorem pickIdxAux_lt {α : Type} (upd : α → α → Bool) :
    ∀ (t : List α) (i bi : ℕ) (bv : α), bi < i →
      pickIdxAux upd t i bi bv < i + t.length
  | [], i, bi, bv, h => by simpa [pickIdxAux] using h
  | a :: t, i, bi, bv, h => by
      simp only [pickIdxAux]
      by_cases hc : upd a bv = true
      · rw [if_pos hc]
        have h2 := pickIdxAux_lt upd t (i + 1) i a (Nat.lt_succ_self i)
        simp only [List.length_cons]
        omega
      · rw [if_neg hc]
        have h2 := pickIdxAux_lt upd t (i + 1) bi bv (by omega)
        simp only [List.length_cons]
        omega

theorem pickIdx_lt_length {α : Type} (upd : α → α → Bool) (l : List α)
    (h : l ≠ []) : pickIdx upd l < l.length := by
  match l with
  | [] => exact absurd rfl h
  | a :: t =>
      have h2 := pickIdxAux_lt upd t 1 0 a Nat.one_pos
      simp only [pickIdx, List.length_cons]
      omega

theorem idxmin_lt_length (l : List ℤ) (h : l ≠ []) : idxmin l < l.length :=
  pickIdx_lt_length _ l h

theorem idxmaxQ_lt_length (l : List ℚ) (h : l ≠ []) : idxmaxQ l < l.length :=
  pickIdx_lt_length _ l h

theorem getD_set_ne {α : Type} (l : List α) {i j : ℕ} (hne : i ≠ j)
    (a dflt : α) : (l.set i a).getD j dflt = l.getD j dflt := by
  simp [List.getD_eq_getElem?_getD, List.getElem?_set_ne hne]

theorem getD_set_self {α : Type} (l : List α) {i : ℕ} (a dflt : α)
    (h : i < l.length) : (l.set i a).getD i dflt = a := by
  simp [List.getD_eq_getElem?_getD, List.getElem?_set_self h]

theorem getD_eraseIdx_lt {α : Type} (l : List α) {i j : ℕ} (h : j < i)
    (dflt : α) : (l.eraseIdx i).getD j dflt = l.getD j dflt := by
  simp [List.getD_eq_getElem?_getD, List.getElem?_eraseIdx_of_lt l i j h]

theorem getD_eraseIdx_ge {α : Type} (l : List α) {i j : ℕ} (h : i ≤ j)
    (dflt : α) : (l.eraseIdx i).getD j dflt = l.getD (j + 1) dflt := by
  simp [List.getD_eq_getElem?_getD, List.getElem?_eraseIdx_of_ge l i j h]

theorem length_adjSums (l : List ℤ) : (adjSums l).length = l.length - 1 := by
  simp only [adjSums, List.length_zipWith, List.length_tail]
  omega

theorem getD_adjSums (l : List ℤ) {j : ℕ} (h : j + 1 < l.length) :
    (adjSums l).getD j 0 = l.getD j 0 + l.getD (j + 1) 0 := by
  have h1 : j < (adjSums l).length := by rw [length_adjSums]; omega
  have h2 : j < l.tail.length := by simp only [List.length_tail]; omega
  rw [List.getD_eq_getElem _ _ h1, List.getD_eq_getElem _ _ (by omega : j < l.length),
      List.getD_eq_getElem _ _ h]
  simp only [adjSums]
  rw [List.getElem_zipWith]
  rw [List.getElem_tail]

/-! ### Properties of `mergeAt` -/

theorem mergeAt_length {α : Type} [Add α] (z : α) (l : List α) (i : ℕ)
    (h : i + 1 < l.length) : (mergeAt z l i).length = l.length - 1 := by
  simp only [mergeAt]
  rw [List.length_eraseIdx_of_lt (by simpa using h)]
  simp

theorem getD_mergeAt {α : Type} [Add α] (z : α) (l : List α) (i k : ℕ)
    (hk : k < l.length - 1) :
    (mergeAt z l i).getD k z =
      if k < i then l.getD k z
      else if k = i then l.getD i z + l.getD (i + 1) z
      else l.getD (k + 1) z := by
  simp only [mergeAt]
  by_cases h1 : k < i + 1
  · rw [getD_eraseIdx_lt _ h1]
    by_cases h2 : k = i
    · subst h2
      rw [getD_set_self _ _ _ (by omega)]
      simp
    · have h3 : k < i := by omega
      rw [getD_set_ne _ (by omega)]
      simp [h3]
  · rw [getD_eraseIdx_ge _ (by omega)]
    rw [getD_set_ne _ (by omega)]
    have h3 : ¬ k < i := by omega
    have h4 : k ≠ i := by omega
    simp [h3, h4]

theorem mergeAt_sum {α : Type} [AddCommMonoid α] (z : α) :
    ∀ (l : List α) (i : ℕ), i + 1 < l.length → (mergeAt z l i).sum = l.sum
  | a :: b :: t, 0, _ => by
      simp [mergeAt, add_assoc]
  | a :: t, i + 1, h => by
      have ht : i + 1 < t.length := by
        simp only [List.length_cons] at h
        omega
      have ih := mergeAt_sum z t i ht
      simp only [mergeAt, List.getD_cons_succ, List.set_cons_succ,
        List.eraseIdx_cons_succ, List.sum_cons] at ih ⊢
      rw [ih]
  | [], 0, h => by simp at h
  | [a], 0, h => by simp at h

/-! ### The incremental `Njd` bookkeeping recomputes the adjacent sums -/

theorem njd_surgery (A D1 D2 : List ℤ) (i : ℕ) (hi : i < A.length - 1)
    (hD1 : D1 = if i + 1 < (adjSums A).length then
        (adjSums A).set (i + 1) ((adjSums A).getD (i + 1) 0 + A.getD i 0)
      else adjSums A)
    (hD2 : D2 = if 0 < i then
        D1.set (i - 1) (D1.getD (i - 1) 0 + A.getD (i + 1) 0)
      else D1) :
    D2.eraseIdx i = adjSums (mergeAt 0 A i) := by
  have hND : (adjSums A).length = A.length - 1 := length_adjSums A
  have hD1len : D1.length = A.length - 1 := by
    rw [hD1]; split <;> simp [hND]
  have hD2len : D2.length = A.length - 1 := by
    rw [hD2]; split <;> simp [hD1len]
  have hmlen : (mergeAt 0 A i).length = A.length - 1 :=
    mergeAt_length _ _ _ (by omega)
  have hD1get : ∀ k, k ≠ i + 1 → D1.getD k 0 = (adjSums A).getD k 0 := by
    intro k hk
    rw [hD1]; split
    · exact getD_set_ne _ (Ne.symm hk) _ _
    · rfl
  have hD1get2 : i + 1 < A.length - 1 →
      D1.getD (i + 1) 0 = (adjSums A).getD (i + 1) 0 + A.getD i 0 := by
    intro hlt
    rw [hD1, if_pos (by omega : i + 1 < (adjSums A).length)]
    exact getD_set_self _ _ _ (by omega)
  have hD2get : ∀ k, (0 < i → k ≠ i - 1) → D2.getD k 0 = D1.getD k 0 := by
    intro k hk
    rw [hD2]; split
    · next h0 => exact getD_set_ne _ (Ne.symm (hk h0)) _ _
    · rfl
  have hD2get2 : 0 < i →
      D2.getD (i - 1) 0 = D1.getD (i - 1) 0 + A.getD (i + 1) 0 := by
    intro h0
    rw [hD2, if_pos h0]
    exact getD_set_self _ _ _ (by omega)
  apply List.ext_getElem
  · rw [List.length_eraseIdx_of_lt (by omega), hD2len, length_adjSums, hmlen]
  · intro j hj1 hj2
    have hjA : j < A.length - 2 := by
      rw [List.length_eraseIdx_of_lt (by omega), hD2len] at hj1
      omega
    rw [← List.getD_eq_getElem _ 0 hj1, ← List.getD_eq_getElem _ 0 hj2]
    rw [getD_adjSums _ (by omega : j + 1 < (mergeAt 0 A i).length)]
    rw [getD_mergeAt 0 A i j (by omega), getD_mergeAt 0 A i (j + 1) (by omega)]
    by_cases hji : j < i
    · rw [getD_eraseIdx_lt _ hji]
      by_cases hj1 : j = i - 1
      · have h0 : 0 < i := by omega
        have hsucc : i - 1 + 1 = i := by omega
        rw [hj1, hD2get2 h0, hD1get (i - 1) (by omega),
          getD_adjSums _ (by rw [hsucc]; omega : i - 1 + 1 < A.length), hsucc]
        split_ifs <;> first | ring1 | (exfalso; omega)
      · rw [hD2get j (fun _ => by omega), hD1get j (by omega),
          getD_adjSums _ (by omega : j + 1 < A.length)]
        split_ifs <;> first | ring1 | (exfalso; omega)
    · rw [getD_eraseIdx_ge _ (by omega)]
      by_cases hji2 : j = i
      · rw [hji2, hD2get (i + 1) (fun _ => by omega), hD1get2 (by omega),
          getD_adjSums _ (by omega : i + 1 + 1 < A.length)]
        split_ifs <;> first | ring1 | (exfalso; omega)
      · rw [hD2get (j + 1) (fun _ => by omega), hD1get (j + 1) (by omega),
          getD_adjSums _ (by omega : j + 1 + 1 < A.length)]
        split_ifs <;> first | ring1 | (exfalso; omega)

theorem njd2_getD_at (A D1 D2 : List ℤ) (i : ℕ) (hi : i < A.length - 1)
    (hD1 : D1 = if i + 1 < (adjSums A).length then
        (adjSums A).set (i + 1) ((adjSums A).getD (i + 1) 0 + A.getD i 0)
      else adjSums A)
    (hD2 : D2 = if 0 < i then
        D1.set (i - 1) (D1.getD (i - 1) 0 + A.getD (i + 1) 0)
      else D1) :
    D2.getD i 0 = A.getD i 0 + A.getD (i + 1) 0 := by
  have hD1geti : D1.getD i 0 = (adjSums A).getD i 0 := by
    rw [hD1]; split
    · exact getD_set_ne _ (by omega) _ _
    · rfl
  have hD2geti : D2.getD i 0 = D1.getD i 0 := by
    rw [hD2]; split
    · exact getD_set_ne _ (by omega) _ _
    · rfl
  rw [hD2geti, hD1geti, getD_adjSums _ (by omega)]

/-- The loop body of the `K < J` branch performs exactly one round of the
reference merging process, and keeps `Njd` equal to the adjacent sums of the
current `Nk`. -/
theorem mergeStep_eq_spec (s : MergeState) (hD : s.Njd = adjSums s.Nk)
    (h2 : 2 ≤ s.Nk.length) :
    mergeStep s = ⟨(specMergeStep (s.Nk, s.Njk)).1,
                   adjSums (specMergeStep (s.Nk, s.Njk)).1,
                   (specMergeStep (s.Nk, s.Njk)).2⟩ := by
  obtain ⟨A, D, C⟩ := s
  simp only at hD h2
  subst hD
  have hne : adjSums A ≠ [] := by
    intro hcon
    have hlen := length_adjSums A
    rw [hcon] at hlen
    simp only [List.length_nil] at hlen
    omega
  have hilt : idxmin (adjSums A) < A.length - 1 := by
    have h3 := idxmin_lt_length _ hne
    rwa [length_adjSums] at h3
  simp only [mergeStep, specMergeStep]
  rw [MergeState.mk.injEq]
  refine ⟨?_, ?_, ?_⟩
  · rw [njd2_getD_at A _ _ (idxmin (adjSums A)) hilt rfl rfl]
    rfl
  · exact njd_surgery A _ _ (idxmin (adjSums A)) hilt rfl rfl
  · rfl

theorem idxmin_adjSums_lt (A : List ℤ) (h2 : 2 ≤ A.length) :
    idxmin (adjSums A) + 1 < A.length := by
  have hne : adjSums A ≠ [] := by
    intro hcon
    have hlen := length_adjSums A
    rw [hcon] at hlen
    simp only [List.length_nil] at hlen
    omega
  have h3 := idxmin_lt_length _ hne
  rw [length_adjSums] at h3
  omega

theorem specMergeStep_fst_length (A : List ℤ) (C : List ℕ) (h2 : 2 ≤ A.length) :
    (specMergeStep (A, C)).1.length = A.length - 1 := by
  simp only [specMergeStep]
  exact mergeAt_length _ _ _ (idxmin_adjSums_lt A h2)

theorem specMergeStep_invariant (A : List ℤ) (C : List ℕ) (h2 : 2 ≤ A.length)
    (hC : C.length = A.length) :
    (specMergeStep (A, C)).1.length = A.length - 1 ∧
    (specMergeStep (A, C)).2.length = A.length - 1 ∧
    (specMergeStep (A, C)).1.sum = A.sum ∧
    (specMergeStep (A, C)).2.sum = C.sum := by
  have hb := idxmin_adjSums_lt A h2
  simp only [specMergeStep]
  refine ⟨mergeAt_length _ _ _ hb, ?_, mergeAt_sum _ _ _ hb,
    mergeAt_sum _ _ _ (by omega)⟩
  rw [mergeAt_length _ _ _ (by omega)]
  omega

theorem specMerge_iterate_invariant (steps : ℕ) :
    ∀ (A : List ℤ) (C : List ℕ), steps + 2 ≤ A.length → C.length = A.length →
      (specMergeStep^[steps] (A, C)).1.length = A.length - steps ∧
      (specMergeStep^[steps] (A, C)).2.length = A.length - steps ∧
      (specMergeStep^[steps] (A, C)).1.sum = A.sum ∧
      (specMergeStep^[steps] (A, C)).2.sum = C.sum := by
  induction steps with
  | zero =>
      intro A C h hC
      refine ⟨by simp, by simp [hC], by simp, by simp⟩
  | succ k ih =>
      intro A C h hC
      rw [Function.iterate_succ_apply]
      have h2 : 2 ≤ A.length := by omega
      obtain ⟨l1, l2, s1, s2⟩ := specMergeStep_invariant A C h2 hC
      obtain ⟨a1, a2, a3, a4⟩ := ih (specMergeStep (A, C)).1 (specMergeStep (A, C)).2
        (by rw [l1]; omega) (by rw [l1, l2])
      refine ⟨?_, ?_, ?_, ?_⟩
      · rw [a1, l1]; omega
      · rw [a2, l1]; omega
      · rw [a3, s1]
      · rw [a4, s2]

/-- The merging loop of `distribute_groups` computes exactly the iterate of
the reference process, both in sizes and in original-group counts. -/
theorem mergeLoop_eq_spec (steps : ℕ) :
    ∀ (A : List ℤ) (C : List ℕ), steps + 2 ≤ A.length →
      mergeStep^[steps] ⟨A, adjSums A, C⟩ =
        ⟨(specMergeStep^[steps] (A, C)).1,
         adjSums (specMergeStep^[steps] (A, C)).1,
         (specMergeStep^[steps] (A, C)).2⟩ := by
  induction steps with
  | zero => intro A C h; rfl
  | succ k ih =>
      intro A C h
      rw [Function.iterate_succ_apply, Function.iterate_succ_apply]
      rw [mergeStep_eq_spec ⟨A, adjSums A, C⟩ rfl (show 2 ≤ A.length by omega)]
      exact ih (specMergeStep (A, C)).1 (specMergeStep (A, C)).2
        (by rw [specMergeStep_fst_length A C (by omega)]; omega)

/-! ### Invariants of the splitting branch -/

theorem sum_set_getD_succ : ∀ (l : List ℕ) (c : ℕ), c < l.length →
    (l.set c (l.getD c 0 + 1)).sum = l.sum + 1
  | [], c, h => by simp at h
  | a :: t, 0, _ => by
      simp only [List.getD_cons_zero, List.set_cons_zero, List.sum_cons]
      omega
  | a :: t, c + 1, h => by
      have ih := sum_set_getD_succ t c (by simp only [List.length_cons] at h; omega)
      simp only [List.getD_cons_succ, List.set_cons_succ, List.sum_cons]
      omega

theorem splitLoop_invariant (Nj : List ℤ) (steps : ℕ) :
    ∀ p : List ℕ × List ℚ, 0 < p.1.length → p.1.length = p.2.length →
      (∀ x ∈ p.1, 1 ≤ x) →
      ((splitStep Nj)^[steps] p).1.length = p.1.length ∧
      (∀ x ∈ ((splitStep Nj)^[steps] p).1, 1 ≤ x) ∧
      ((splitStep Nj)^[steps] p).1.sum = p.1.sum + steps := by
  induction steps with
  | zero =>
      intro p h1 h2 h3
      exact ⟨rfl, h3, by simp⟩
  | succ k ih =>
      intro p h1 h2 h3
      rw [Function.iterate_succ_apply]
      have hc : idxmaxQ p.2 < p.1.length := by
        rw [h2]
        exact idxmaxQ_lt_length _ (by
          intro hcon
          rw [hcon] at h2
          simp only [List.length_nil] at h2
          omega)
      have hstep1 : (splitStep Nj p).1 = p.1.set (idxmaxQ p.2) (p.1.getD (idxmaxQ p.2) 0 + 1) := rfl
      have hlen1 : (splitStep Nj p).1.length = p.1.length := by rw [hstep1]; simp
      have hlen2 : (splitStep Nj p).2.length = p.2.length := by
        simp only [splitStep]
        simp
      have hmem1 : ∀ x ∈ (splitStep Nj p).1, 1 ≤ x := by
        intro x hx
        rw [hstep1] at hx
        rcases List.mem_or_eq_of_mem_set hx with h | h
        · exact h3 x h
        · omega
      obtain ⟨a1, a2, a3⟩ := ih (splitStep Nj p) (by rw [hlen1]; omega)
        (by rw [hlen1, hlen2, h2]) hmem1
      refine ⟨by rw [a1, hlen1], a2, ?_⟩
      rw [a3, hstep1, sum_set_getD_succ _ _ hc]
      omega

theorem sum_map_range_ite (q : ℤ) :
    ∀ (p : ℕ) (r : ℤ), 0 ≤ r →
      ((List.range p).map fun kj : ℕ => if (kj : ℤ) < r then q + 1 else q).sum
        = (p : ℤ) * q + min r (p : ℤ) := by
  intro p
  induction p with
  | zero =>
      intro r hr
      simp only [List.range_zero, List.map_nil, List.sum_nil, Nat.cast_zero,
        zero_mul, zero_add]
      omega
  | succ k ih =>
      intro r hr
      rw [List.range_succ, List.map_append, List.sum_append]
      simp only [List.map_cons, List.map_nil, List.sum_cons, List.sum_nil]
      rw [ih r hr]
      have hmul : ((k : ℤ) + 1) * q = (k : ℤ) * q + q := by ring
      push_cast
      rw [hmul]
      by_cases hkr : (k : ℤ) < r
      · rw [if_pos hkr]
        omega
      · rw [if_neg hkr]
        omega

theorem siteSizes_sum (nj : ℤ) (p : ℕ) (hp : 0 < p) :
    (siteSizes nj p).sum = nj := by
  have hpz : (0 : ℤ) < (p : ℤ) := by exact_mod_cast hp
  unfold siteSizes
  rw [sum_map_range_ite _ _ _ (Int.emod_nonneg nj (by omega))]
  rw [min_eq_left (le_of_lt (Int.emod_lt_of_pos nj hpz))]
  exact Int.ediv_add_emod nj (p : ℤ)

theorem siteSizes_mem (nj : ℤ) (p : ℕ) {x : ℤ} (hx : x ∈ siteSizes nj p) :
    x = nj / (p : ℤ) ∨ x = nj / (p : ℤ) + 1 := by
  unfold siteSizes at hx
  obtain ⟨kj, _, hkj⟩ := List.mem_map.mp hx
  by_cases h : (kj : ℤ) < nj % (p : ℤ)
  · rw [if_pos h] at hkj
    exact Or.inr hkj.symm
  · rw [if_neg h] at hkj
    exact Or.inl hkj.symm

theorem map_getD_range : ∀ (l : List ℤ),
    (List.range l.length).map (fun j => l.getD j 0) = l
  | [] => by simp
  | a :: t => by
      rw [List.length_cons, List.range_succ_eq_map, List.map_cons]
      simp only [List.getD_cons_zero, List.map_map]
      congr 1
      have hcomp : ((fun j => (a :: t).getD j 0) ∘ Nat.succ) = fun j => t.getD j 0 := rfl
      rw [hcomp, map_getD_range t]

theorem length_le_sum_of_pos : ∀ (l : List ℤ), (∀ x ∈ l, 0 < x) →
    (l.length : ℤ) ≤ l.sum
  | [], _ => by simp
  | a :: t, h => by
      have ht := length_le_sum_of_pos t (fun x hx => h x (List.mem_cons_of_mem a hx))
      have ha := h a (List.mem_cons_self a t)
      simp only [List.length_cons, List.sum_cons]
      push_cast
      omega

/-! ### Branch unfolding lemmas for `distribute_groups` -/

theorem checked_merge_eq (J K : ℕ) (Nj : List ℤ) (hpos : ∀ x ∈ Nj, 0 < x)
    (hK2 : 2 ≤ K) (hKJ : K < J) (hJ : Nj.length = J) :
    distributeGroupsChecked J K Nj =
      Except.ok (DGResult.merge
        (specMergeStep^[J - K] (Nj, List.replicate J 1)).1
        (specMergeStep^[J - K] (Nj, List.replicate J 1)).2
        (jIndK Nj (specMergeStep^[J - K] (Nj, List.replicate J 1)).2)) := by
  have hloop := mergeLoop_eq_spec (J - K) Nj (List.replicate J 1)
    (by rw [hJ]; omega)
  unfold distributeGroupsChecked
  rw [if_neg (by rintro ⟨x, hx, hle⟩; exact absurd (hpos x hx) (by omega)),
    if_neg (by omega : ¬ K < 2), if_pos hKJ]
  rw [hloop]

theorem split_Nk_sum (Nj : List ℤ) (ppg : List ℕ)
    (hlen : ppg.length = Nj.length) (hpos1 : ∀ x ∈ ppg, 1 ≤ x) :
    ((List.range Nj.length).flatMap fun j =>
      siteSizes (Nj.getD j 0) (ppg.getD j 0)).sum = Nj.sum := by
  rw [List.flatMap_def, List.sum_flatten, List.map_map]
  have hcong : ∀ j ∈ List.range Nj.length,
      (List.sum ∘ fun j => siteSizes (Nj.getD j 0) (ppg.getD j 0)) j
        = Nj.getD j 0 := by
    intro j hj
    have hjlt : j < Nj.length := List.mem_range.mp hj
    have hppg : 1 ≤ ppg.getD j 0 := by
      have hmem : ppg.getD j 0 ∈ ppg := by
        rw [List.getD_eq_getElem _ _ (by rw [hlen]; omega)]
        exact List.getElem_mem _
      exact hpos1 _ hmem
    simpa using siteSizes_sum (Nj.getD j 0) (ppg.getD j 0) (by omega)
  rw [List.map_congr_left hcong, map_getD_range]

/-- C2: for a valid input with `2 ≤ K < J`, the per-site sample counts and
groups-per-site counts returned by `distribute_groups` are exactly the
result of iterating the reference process (merge the first adjacent pair of
smallest combined size) `J - K` times starting from the original groups. -/
theorem c2_merge_matches_reference (J K : ℕ) (Nj : List ℤ)
    (hJ : Nj.length = J) (hK2 : 2 ≤ K) (hKJ : K < J)
    (hpos : ∀ x ∈ Nj, 0 < x) :
    distribute_groups J K (Sum.inr Nj) =
      Except.ok (DGResult.merge
        (specMergeStep^[J - K] (Nj, List.replicate J 1)).1
        (specMergeStep^[J - K] (Nj, List.replicate J 1)).2
        (jIndK Nj (specMergeStep^[J - K] (Nj, List.replicate J 1)).2)) := by
  simp only [distribute_groups]
  rw [if_neg (by simp [hJ])]
  exact checked_merge_eq J K Nj hpos hK2 hKJ hJ

/-- Witness for C2 at the spec's concrete scenario
`distributeGroups(J=5, K=3, sizes=[10,10,10,10,10])`. -/
theorem c2_merge_matches_reference_witness :
    ([10, 10, 10, 10, 10] : List ℤ).length = 5 ∧ 2 ≤ 3 ∧ 3 < 5 ∧
    (∀ x ∈ ([10, 10, 10, 10, 10] : List ℤ), 0 < x) ∧
    distribute_groups 5 3 (Sum.inr [10, 10, 10, 10, 10]) =
      Except.ok (DGResult.merge
        (specMergeStep^[5 - 3] ([10, 10, 10, 10, 10], List.replicate 5 1)).1
        (specMergeStep^[5 - 3] ([10, 10, 10, 10, 10], List.replicate 5 1)).2
        (jIndK [10, 10, 10, 10, 10]
          (specMergeStep^[5 - 3] ([10, 10, 10, 10, 10], List.replicate 5 1)).2)) :=
  ⟨by decide, by decide, by decide, by decide,
   c2_merge_matches_reference 5 3 [10, 10, 10, 10, 10]
     (by decide) (by decide) (by decide) (by decide)⟩

/-- C3: for every valid input, the returned per-site sample counts sum to
the total number of samples; for `K < J` the groups-per-site counts sum to
`J`; for `K > J` the sites-per-group counts sum to `K` and the sites carved
out of one group have sample counts differing by at most 1. -/
theorem c3_distribute_groups_sums (J K : ℕ) (Nj : List ℤ)
    (hJ : Nj.length = J) (hpos : ∀ x ∈ Nj, 0 < x) (hK2 : 2 ≤ K)
    (hKN : (K : ℤ) ≤ Nj.sum) :
    ∃ r : DGResult, distribute_groups J K (Sum.inr Nj) = Except.ok r ∧
      (resNk r).sum = Nj.sum ∧
      (∀ Nk Njk jk, r = DGResult.merge Nk Njk jk → Njk.sum = J) ∧
      (∀ Nk ppg, r = DGResult.split Nk ppg → ppg.sum = K ∧
        Nk = ((List.range J).flatMap fun j =>
          siteSizes (Nj.getD j 0) (ppg.getD j 0)) ∧
        ∀ j < J, ∀ a ∈ siteSizes (Nj.getD j 0) (ppg.getD j 0),
          ∀ b ∈ siteSizes (Nj.getD j 0) (ppg.getD j 0), a - b ≤ 1) := by
  simp only [distribute_groups]
  rw [if_neg (by simp [hJ])]
  rcases Nat.lt_trichotomy K J with hKJ | hKJ | hKJ
  · -- K < J : merging branch
    rw [checked_merge_eq J K Nj hpos hK2 hKJ hJ]
    obtain ⟨l1, l2, s1, s2⟩ := specMerge_iterate_invariant (J - K) Nj
      (List.replicate J 1) (by rw [hJ]; omega) (by simp [hJ])
    refine ⟨_, rfl, ?_, ?_, ?_⟩
    · simpa [resNk] using s1
    · intro Nk Njk jk heq
      obtain ⟨h1, h2, h3⟩ := DGResult.merge.inj heq
      rw [← h2, s2]
      simp
    · intro Nk ppg heq
      exact absurd heq (by simp)
  · -- K = J : identity branch
    subst hKJ
    unfold distributeGroupsChecked
    rw [if_neg (by rintro ⟨x, hx, hle⟩; exact absurd (hpos x hx) (by omega)),
      if_neg (by omega : ¬ K < 2), if_neg (by omega : ¬ K < K),
      if_pos rfl]
    refine ⟨_, rfl, rfl, ?_, ?_⟩
    · intro Nk Njk jk heq
      exact absurd heq (by simp)
    · intro Nk ppg heq
      exact absurd heq (by simp)
  · -- K > J : splitting branch
    have hJ1 : 1 ≤ J := by
      by_contra h
      have hJ0 : J = 0 := by omega
      have : Nj = [] := by
        rw [hJ0] at hJ
        exact List.length_eq_zero.mp hJ
      rw [this] at hKN
      simp only [List.sum_nil] at hKN
      omega
    unfold distributeGroupsChecked
    rw [if_neg (by rintro ⟨x, hx, hle⟩; exact absurd (hpos x hx) (by omega)),
      if_neg (by omega : ¬ K < 2), if_neg (by omega : ¬ K < J),
      if_neg (by omega : ¬ K = J), if_pos hKN]
    obtain ⟨p1, p2, p3⟩ := splitLoop_invariant Nj (K - J)
      (List.replicate J 1, Nj.map (fun x : ℤ => (x : ℚ)))
      (by simpa using hJ1) (by simp [hJ]) (by simp)
    set ppg := ((splitStep Nj)^[K - J]
      (List.replicate J 1, Nj.map (fun x : ℤ => (x : ℚ)))).1 with hppg
    have hppglen : ppg.length = J := by simpa using p1
    have hppgsum : ppg.sum = K := by
      rw [p3]
      simp only [List.sum_replicate, smul_eq_mul, mul_one]
      omega
    refine ⟨_, rfl, ?_, ?_, ?_⟩
    · have := split_Nk_sum Nj ppg (by rw [hppglen, hJ]) p2
      rw [hJ] at this
      simpa [resNk] using this
    · intro Nk Njk jk heq
      exact absurd heq (by simp)
    · intro Nk ppg2 heq
      obtain ⟨h1, h2⟩ := DGResult.split.inj heq
      subst h2
      refine ⟨hppgsum, h1.symm ▸ rfl, ?_⟩
      intro j hj a ha b hb
      rcases siteSizes_mem _ _ ha with h | h <;>
        rcases siteSizes_mem _ _ hb with h' | h' <;> omega
/-- Witness for C3 at the spec's concrete scenario
`distributeGroups(J=2, K=5, sizes=[12,3])`. -/
theorem c3_distribute_groups_sums_witness :
    ([12, 3] : List ℤ).length = 2 ∧ (∀ x ∈ ([12, 3] : List ℤ), 0 < x) ∧
    2 ≤ 5 ∧ ((5 : ℕ) : ℤ) ≤ ([12, 3] : List ℤ).sum ∧
    (∃ r : DGResult, distribute_groups 2 5 (Sum.inr [12, 3]) = Except.ok r ∧
      (resNk r).sum = ([12, 3] : List ℤ).sum ∧
      (∀ Nk Njk jk, r = DGResult.merge Nk Njk jk → Njk.sum = 2) ∧
      (∀ Nk ppg, r = DGResult.split Nk ppg → ppg.sum = 5 ∧
        Nk = ((List.range 2).flatMap fun j =>
          siteSizes (([12, 3] : List ℤ).getD j 0) (ppg.getD j 0)) ∧
        ∀ j < 2, ∀ a ∈ siteSizes (([12, 3] : List ℤ).getD j 0) (ppg.getD j 0),
          ∀ b ∈ siteSizes (([12, 3] : List ℤ).getD j 0) (ppg.getD j 0),
            a - b ≤ 1)) :=
  ⟨by decide, by decide, by decide, by decide,
   c3_distribute_groups_sums 2 5 [12, 3] (by decide) (by decide) (by decide)
     (by decide)⟩

/-- C6: `distribute_groups(J, K, Nj)` with an array argument raises a
`ValueError` exactly when the array does not have length `J`, some group
size is non-positive, `K < 2`, or `K` exceeds the total number of samples;
no other input causes an error. -/
theorem c6_distribute_groups_error_iff (J K : ℕ) (Nj : List ℤ) :
    (∃ msg, distribute_groups J K (Sum.inr Nj) = Except.error msg) ↔
      (Nj.length ≠ J ∨ (∃ x ∈ Nj, x ≤ 0) ∨ K < 2 ∨ Nj.sum < (K : ℤ)) := by
  simp only [distribute_groups]
  by_cases hshape : Nj.length ≠ J
  · rw [if_pos hshape]
    exact ⟨fun _ => Or.inl hshape, fun _ => ⟨_, rfl⟩⟩
  · rw [if_neg hshape]
    have hJ : Nj.length = J := by omega
    unfold distributeGroupsChecked
    by_cases hbad : ∃ x ∈ Nj, x ≤ 0
    · rw [if_pos hbad]
      exact ⟨fun _ => Or.inr (Or.inl hbad), fun _ => ⟨_, rfl⟩⟩
    · rw [if_neg hbad]
      have hpos : ∀ x ∈ Nj, 0 < x := by
        intro x hx
        by_contra hcon
        exact hbad ⟨x, hx, by omega⟩
      have hJN : (J : ℤ) ≤ Nj.sum := by
        have := length_le_sum_of_pos Nj hpos
        rwa [hJ] at this
      by_cases hk2 : K < 2
      · rw [if_pos hk2]
        exact ⟨fun _ => Or.inr (Or.inr (Or.inl hk2)), fun _ => ⟨_, rfl⟩⟩
      · rw [if_neg hk2]
        have hnoerr : ∀ P : Prop, (Nj.length ≠ J ∨ (∃ x ∈ Nj, x ≤ 0) ∨
            K < 2 ∨ Nj.sum < (K : ℤ)) → ((K : ℤ) ≤ Nj.sum) → P := by
          intro P h hsum
          rcases h with h | h | h | h
          · exact absurd h hshape
          · exact absurd h hbad
          · exact absurd h hk2
          · omega
        by_cases hkj : K < J
        · rw [if_pos hkj]
          have hKN : (K : ℤ) ≤ Nj.sum := by
            have : (K : ℤ) < (J : ℤ) := by exact_mod_cast hkj
            omega
          refine ⟨fun hcon => ?_, fun h => hnoerr _ h hKN⟩
          obtain ⟨msg, hmsg⟩ := hcon
          exact absurd hmsg (by simp)
        · rw [if_neg hkj]
          by_cases hkeq : K = J
          · rw [if_pos hkeq]
            have hKN : (K : ℤ) ≤ Nj.sum := by
              subst hkeq
              exact hJN
            refine ⟨fun hcon => ?_, fun h => hnoerr _ h hKN⟩
            obtain ⟨msg, hmsg⟩ := hcon
            exact absurd hmsg (by simp)
          · rw [if_neg hkeq]
            by_cases hkn : (K : ℤ) ≤ Nj.sum
            · rw [if_pos hkn]
              refine ⟨fun hcon => ?_, fun h => hnoerr _ h hkn⟩
              obtain ⟨msg, hmsg⟩ := hcon
              exact absurd hmsg (by simp)
            · rw [if_neg hkn]
              exact ⟨fun _ => Or.inr (Or.inr (Or.inr (by omega))),
                fun _ => ⟨_, rfl⟩⟩

/-- C10: calling `distribute_groups` with the scalar group-size argument `n`
yields exactly the same result as calling it with the constant length-`J`
vector (`Nj*np.ones(J)`). -/
theorem c10_scalar_group_sizes (J K : ℕ) (n : ℤ) (_hn : 0 < n) :
    distribute_groups J K (Sum.inl n) =
      distribute_groups J K (Sum.inr (List.replicate J n)) := by
  simp only [distribute_groups]
  rw [if_neg (by simp)]

/-- Witness for C10 at `J = 3`, `K = 4`, `n = 2`. -/
theorem c10_scalar_group_sizes_witness :
    (0 : ℤ) < 2 ∧
    distribute_groups 3 4 (Sum.inl 2) =
      distribute_groups 3 4 (Sum.inr (List.replicate 3 2)) :=
  ⟨by decide, c10_scalar_group_sizes 3 4 2 (by decide)⟩

/-! ### Matrix helper lemmas over `ℚ` -/

theorem qinv_eq_inv {ι : Type} [Fintype ι] [DecidableEq ι]
    (A : Matrix ι ι ℚ) : qinv A = A⁻¹ := by
  rw [Matrix.inv_def, Ring.inverse_eq_inv]
  rfl

theorem posDefQ_det_ne_zero {d : ℕ} {A : Matrix (Fin d) (Fin d) ℚ}
    (hA : PosDefQ A) : A.det ≠ 0 := by
  intro hdet
  obtain ⟨v, hv0, hv⟩ := Matrix.exists_mulVec_eq_zero_iff.mpr hdet
  have h2 := hA.2 v hv0
  rw [hv, Matrix.dotProduct_zero] at h2
  exact lt_irrefl 0 h2

theorem posDefQ_one {d : ℕ} : PosDefQ (1 : Matrix (Fin d) (Fin d) ℚ) := by
  refine ⟨Matrix.transpose_one, ?_⟩
  intro x hx
  rw [Matrix.one_mulVec]
  have hx2 : ∃ i, x i ≠ 0 := by
    by_contra hcon
    push_neg at hcon
    exact hx (funext hcon)
  obtain ⟨i, hi⟩ := hx2
  have hsum : (0 : ℚ) < ∑ j, x j * x j := by
    apply Finset.sum_pos' (fun j _ => mul_self_nonneg (x j))
    exact ⟨i, Finset.mem_univ i, mul_self_pos.mpr hi⟩
  simpa [Matrix.dotProduct] using hsum

theorem copy_triu_entry_symm {d : ℕ} (A : Matrix (Fin d) (Fin d) ℚ)
    (i j : Fin d) : copy_triu_to_tril A i j = copy_triu_to_tril A j i := by
  unfold copy_triu_to_tril
  by_cases h1 : (i : ℕ) ≤ (j : ℕ)
  · by_cases h2 : (j : ℕ) ≤ (i : ℕ)
    · have : i = j := Fin.ext (by omega)
      subst this
      rfl
    · rw [if_pos h1, if_neg h2]
  · by_cases h2 : (j : ℕ) ≤ (i : ℕ)
    · rw [if_neg h1, if_pos h2]
    · omega

theorem copy_triu_of_symm {d : ℕ} (A : Matrix (Fin d) (Fin d) ℚ)
    (hA : Aᵀ = A) : copy_triu_to_tril A = A := by
  have hsym : ∀ i j, A j i = A i j := fun i j => congrFun (congrFun hA i) j
  funext i j
  unfold copy_triu_to_tril
  by_cases h1 : (i : ℕ) ≤ (j : ℕ)
  · rw [if_pos h1]
  · rw [if_neg h1, hsym]

theorem qinv_symm {d : ℕ} {A : Matrix (Fin d) (Fin d) ℚ} (hA : Aᵀ = A) :
    (qinv A)ᵀ = qinv A := by
  unfold qinv
  rw [Matrix.transpose_smul, Matrix.adjugate_transpose, hA]

theorem qinv_det_ne_zero {d : ℕ} {A : Matrix (Fin d) (Fin d) ℚ}
    (hA : A.det ≠ 0) : (qinv A).det ≠ 0 := by
  rw [qinv_eq_inv, Matrix.det_nonsing_inv, Ring.inverse_eq_inv]
  exact inv_ne_zero hA

/-- C1: applying `invert_normal_params` twice to a symmetric
positive-definite covariance and mean returns the original pair, exactly, in
the exact-arithmetic model: the moment/natural conversion is an involution. -/
theorem c1_invert_normal_params_involution {d : ℕ}
    (S : Matrix (Fin d) (Fin d) ℚ) (m : Fin d → ℚ) (hS : PosDefQ S) :
    invert_normal_params (invert_normal_params S m).1
      (invert_normal_params S m).2 = (S, m) := by
  have hdet : S.det ≠ 0 := posDefQ_det_ne_zero hS
  have hunit : IsUnit S.det := isUnit_iff_ne_zero.mpr hdet
  have hmirror : copy_triu_to_tril (qinv S) = qinv S :=
    copy_triu_of_symm _ (qinv_symm hS.1)
  have hinv2 : qinv (qinv S) = S := by
    rw [qinv_eq_inv, qinv_eq_inv, Matrix.nonsing_inv_nonsing_inv S hunit]
  simp only [invert_normal_params, hmirror]
  rw [Prod.mk.injEq]
  constructor
  · rw [hinv2]
    exact copy_triu_of_symm S hS.1
  · rw [hinv2, Matrix.mulVec_mulVec, qinv_eq_inv,
      Matrix.mul_nonsing_inv S hunit, Matrix.one_mulVec]

/-- Witness for C1 at `d = 1`, `S = [[2]]`, `m = [3]`. -/
theorem c1_invert_normal_params_involution_witness :
    PosDefQ (Matrix.of ![![(2 : ℚ)]]) ∧
    invert_normal_params
      (invert_normal_params (Matrix.of ![![(2 : ℚ)]]) ![(3 : ℚ)]).1
      (invert_normal_params (Matrix.of ![![(2 : ℚ)]]) ![(3 : ℚ)]).2
      = (Matrix.of ![![(2 : ℚ)]], ![(3 : ℚ)]) := by
  have hpd : PosDefQ (Matrix.of ![![(2 : ℚ)]]) := by
    constructor
    · funext i j
      fin_cases i; fin_cases j; rfl
    · intro x hx
      have hx0 : x 0 ≠ 0 := by
        intro hcon
        apply hx
        funext i
        fin_cases i
        exact hcon
      have : x ⬝ᵥ (Matrix.of ![![(2 : ℚ)]]).mulVec x = 2 * (x 0 * x 0) := by
        simp [Matrix.dotProduct, Matrix.mulVec, Fin.sum_univ_succ]
        ring
      rw [this]
      have := mul_self_pos.mpr hx0
      nlinarith
  exact ⟨hpd, c1_invert_normal_params_involution _ _ hpd⟩

/-- C8: for valid inputs the matrix outputs of `invert_normal_params` and
`olse` (with either the naive or a symmetric provided prior) are exactly
symmetric, entry by entry. -/
theorem c8_outputs_exactly_symmetric {d : ℕ}
    (A S P : Matrix (Fin d) (Fin d) ℚ) (b : Fin d → ℚ) (nsamp : ℕ)
    (_hA : PosDefQ A) (_hS : PosDefQ S) (hP : Pᵀ = P) :
    (∀ i j, (invert_normal_params A b).1 i j = (invert_normal_params A b).1 j i) ∧
    (∀ i j, olse S nsamp none i j = olse S nsamp none j i) ∧
    (∀ i j, olse S nsamp (some P) i j = olse S nsamp (some P) j i) := by
  have hPsym : ∀ i j : Fin d, P j i = P i j := fun i j =>
    congrFun (congrFun hP i) j
  refine ⟨?_, ?_, ?_⟩
  · intro i j
    simp only [invert_normal_params]
    exact copy_triu_entry_symm _ i j
  · intro i j
    simp only [olse, Matrix.add_apply, Matrix.smul_apply, smul_eq_mul,
      Matrix.one_apply]
    rw [copy_triu_entry_symm _ i j]
    by_cases h : i = j
    · subst h
      rfl
    · rw [if_neg h, if_neg (Ne.symm h)]
  · intro i j
    simp only [olse, Matrix.add_apply, Matrix.smul_apply, smul_eq_mul]
    rw [copy_triu_entry_symm _ i j, hPsym]

/-- Witness for C8 at `d = 1`, `A = S = P = 1`, `b = [0]`, `n = 3`. -/
theorem c8_outputs_exactly_symmetric_witness :
    PosDefQ (1 : Matrix (Fin 1) (Fin 1) ℚ) ∧
    ((1 : Matrix (Fin 1) (Fin 1) ℚ)ᵀ = 1) ∧
    ((∀ i j, (invert_normal_params (1 : Matrix (Fin 1) (Fin 1) ℚ) ![0]).1 i j
        = (invert_normal_params (1 : Matrix (Fin 1) (Fin 1) ℚ) ![0]).1 j i) ∧
     (∀ i j, olse (1 : Matrix (Fin 1) (Fin 1) ℚ) 3 none i j
        = olse (1 : Matrix (Fin 1) (Fin 1) ℚ) 3 none j i) ∧
     (∀ i j, olse (1 : Matrix (Fin 1) (Fin 1) ℚ) 3 (some 1) i j
        = olse (1 : Matrix (Fin 1) (Fin 1) ℚ) 3 (some 1) j i)) :=
  ⟨posDefQ_one, Matrix.transpose_one,
   c8_outputs_exactly_symmetric 1 1 1 ![0] 3 posDefQ_one posDefQ_one
     Matrix.transpose_one⟩

/-! ### The two `olse` branches agree on the naive prior (claim C7) -/

theorem olse_alpha_eq (D N t f : ℚ) (hD : D ≠ 0) :
    1 - (D + t ^ 2 * (1 / D) / (f * (1 / D) - (t * (1 / D)) ^ 2)) / N
      = 1 - (D + t ^ 2 / (f - t ^ 2 / D)) / N := by
  have e1 : f * (1 / D) - (t * (1 / D)) ^ 2 = (f - t ^ 2 / D) / D := by
    field_simp
    ring
  have e2 : t ^ 2 * (1 / D) = t ^ 2 / D := by ring
  rw [e1, e2]
  rcases eq_or_ne (f - t ^ 2 / D) 0 with hy | hy
  · rw [hy]
    simp
  · have e3 : t ^ 2 / D / ((f - t ^ 2 / D) / D) = t ^ 2 / (f - t ^ 2 / D) := by
      rw [div_div_eq_mul_div, div_mul_cancel₀ _ hD]
    rw [e3]

theorem olse_beta_eq (D N t f : ℚ) (hD : D ≠ 0) :
    t * (1 / D) / (1 / D) *
        (1 - D / N - (1 - (D + t ^ 2 * (1 / D) /
          (f * (1 / D) - (t * (1 / D)) ^ 2)) / N)) * (1 / D)
      = t * (1 - D / N - (1 - (D + t ^ 2 / (f - t ^ 2 / D)) / N)) / D := by
  rw [olse_alpha_eq D N t f hD]
  have e : t * (1 / D) / (1 / D) = t := by field_simp
  rw [e]
  ring

theorem froNormSq_naive_prior {d : ℕ} (hd : (d : ℚ) ≠ 0) :
    froNormSq ((1 / (d : ℚ)) • (1 : Matrix (Fin d) (Fin d) ℚ))ᵀ
      = 1 / (d : ℚ) := by
  rw [Matrix.transpose_smul, Matrix.transpose_one]
  unfold froNormSq
  have hsummand : ∀ i j : Fin d,
      (((1 / (d : ℚ)) • (1 : Matrix (Fin d) (Fin d) ℚ)) i j) ^ 2
        = if i = j then (1 / (d : ℚ)) ^ 2 else 0 := by
    intro i j
    simp only [Matrix.smul_apply, Matrix.one_apply, smul_eq_mul]
    by_cases h : i = j
    · rw [if_pos h, if_pos h]
      ring
    · rw [if_neg h, if_neg h]
      ring
  simp only [hsummand, Finset.sum_ite_eq, Finset.mem_univ, if_true]
  rw [Finset.sum_const, Finset.card_univ, Fintype.card_fin, nsmul_eq_mul]
  field_simp
  ring

theorem trSP_naive_prior {d : ℕ} (out : Matrix (Fin d) (Fin d) ℚ) :
    (∑ i, ∑ j, out i j * ((1 / (d : ℚ)) • (1 : Matrix (Fin d) (Fin d) ℚ)) i j)
      = out.trace * (1 / (d : ℚ)) := by
  have hsummand : ∀ i j : Fin d,
      out i j * ((1 / (d : ℚ)) • (1 : Matrix (Fin d) (Fin d) ℚ)) i j
        = if i = j then out i j * (1 / (d : ℚ)) else 0 := by
    intro i j
    simp only [Matrix.smul_apply, Matrix.one_apply, smul_eq_mul]
    by_cases h : i = j
    · rw [if_pos h, if_pos h]
      ring
    · rw [if_neg h, if_neg h]
      ring
  simp only [hsummand, Finset.sum_ite_eq, Finset.mem_univ, if_true]
  rw [← Finset.sum_mul]
  rfl

/-- C7: `olse` with the prior matrix `I/d` returns exactly the same estimate
as `olse` with no prior: the informed-prior branch at the naive prior agrees
with the naive-prior branch. -/
theorem c7_olse_naive_prior_agrees {d : ℕ}
    (S : Matrix (Fin d) (Fin d) ℚ) (n : ℕ) (_hS : PosDefQ S) :
    olse S n (some ((1 / (d : ℚ)) • (1 : Matrix (Fin d) (Fin d) ℚ)))
      = olse S n none := by
  rcases Nat.eq_zero_or_pos d with hd0 | hdpos
  · subst hd0
    funext i j
    exact i.elim0
  · have hd : (d : ℚ) ≠ 0 := Nat.cast_ne_zero.mpr (by omega)
    simp only [olse]
    rw [froNormSq_naive_prior hd, trSP_naive_prior]
    congr 1
    · congr 1
      exact olse_alpha_eq _ _ _ _ hd
    · rw [smul_smul]
      congr 1
      exact olse_beta_eq _ _ _ _ hd

/-- Witness for C7 at `d = 2`, `S = I`, `n = 5`. -/
theorem c7_olse_naive_prior_agrees_witness :
    PosDefQ (1 : Matrix (Fin 2) (Fin 2) ℚ) ∧
    olse (1 : Matrix (Fin 2) (Fin 2) ℚ) 5
        (some ((1 / ((2 : ℕ) : ℚ)) • (1 : Matrix (Fin 2) (Fin 2) ℚ)))
      = olse (1 : Matrix (Fin 2) (Fin 2) ℚ) 5 none :=
  ⟨posDefQ_one, c7_olse_naive_prior_agrees 1 5 posDefQ_one⟩

/-! ### Claims about the `cv_moments` threshold logic and buffer ownership -/

theorem cvFallbackFlag_symm {n d : ℕ} (samp : Matrix (Fin n) (Fin d) ℚ)
    (m : Fin d → ℚ) (t : ℚ) (ht0 : 0 < t) (ht : t < 1 / 2) :
    cvFallbackFlag samp m (some t) = cvFallbackFlag samp m (some (1 - t)) := by
  simp only [cvFallbackFlag]
  rw [if_neg (show ¬ t = 0 by intro h; rw [h] at ht0; exact lt_irrefl 0 ht0),
    if_neg (show ¬ (1 - t) = 0 by intro h; linarith),
    if_pos ht, if_neg (show ¬ (1 - t) < 1 / 2 by linarith)]

/-- C9: with a threshold `0 < t < 1/2`, `cv_moments` behaves exactly as if
called with threshold `1 - t`: the balance check is symmetric around `1/2`. -/
theorem c9_cv_moments_threshold_symmetric {n d : ℕ} (qexp qlog : ℚ → ℚ)
    (samp : Matrix (Fin n) (Fin d) ℚ) (lp : Fin n → ℚ)
    (Q_tilde : Matrix (Fin d) (Fin d) ℚ) (r_tilde : Fin d → ℚ)
    (S_tilde : Option (Matrix (Fin d) (Fin d) ℚ)) (m_tilde : Option (Fin d → ℚ))
    (ldet_Q_tilde : Option ℚ) (multiple_cv : Bool)
    (regulate_a max_a : Option ℚ) (t : ℚ) (ht0 : 0 < t) (ht : t < 1 / 2) :
    cv_moments qexp qlog samp lp Q_tilde r_tilde S_tilde m_tilde ldet_Q_tilde
        multiple_cv regulate_a max_a (some t)
      = cv_moments qexp qlog samp lp Q_tilde r_tilde S_tilde m_tilde
        ldet_Q_tilde multiple_cv regulate_a max_a (some (1 - t)) := by
  simp only [cv_moments]
  rw [cvFallbackFlag_symm samp
    (cvRefMoments Q_tilde r_tilde S_tilde m_tilde).2 t ht0 ht]

/-- Witness for C9 at `t = 1/4` on a one-sample, one-dimensional input. -/
theorem c9_cv_moments_threshold_symmetric_witness :
    (0 : ℚ) < 1 / 4 ∧ (1 / 4 : ℚ) < 1 / 2 ∧
    cv_moments id id (0 : Matrix (Fin 1) (Fin 1) ℚ) 0 1 0 (some 1) (some 0)
        (some 0) true none none (some (1 / 4))
      = cv_moments id id (0 : Matrix (Fin 1) (Fin 1) ℚ) 0 1 0 (some 1) (some 0)
        (some 0) true none none (some (1 - 1 / 4)) :=
  ⟨by norm_num, by norm_num,
   c9_cv_moments_threshold_symmetric id id 0 0 1 0 (some 1) (some 0) (some 0)
     true none none (1 / 4) (by norm_num) (by norm_num)⟩

/-- C4 (amended to thresholds `t ≥ 1/2`, where the interval `[1-t, t]` is
the code's actual acceptance region): if in some dimension the fraction of
samples strictly below the reference mean falls outside `[1-t, t]`,
`cv_moments` skips the control variate and returns the plain sample mean,
the unbiased sample covariance and the flag `False`; otherwise the flag is
`True`. -/
theorem c4_cv_moments_threshold_fallback {n d : ℕ} (qexp qlog : ℚ → ℚ)
    (samp : Matrix (Fin n) (Fin d) ℚ) (lp : Fin n → ℚ)
    (Q_tilde : Matrix (Fin d) (Fin d) ℚ) (r_tilde : Fin d → ℚ)
    (S_tilde : Option (Matrix (Fin d) (Fin d) ℚ)) (m_tilde : Option (Fin d → ℚ))
    (ldet_Q_tilde : Option ℚ) (multiple_cv : Bool)
    (regulate_a max_a : Option ℚ) (t : ℚ) (ht : 1 / 2 ≤ t) :
    ((∃ j, sampBelowFrac samp (cvRefMoments Q_tilde r_tilde S_tilde m_tilde).2 j > t ∨
           sampBelowFrac samp (cvRefMoments Q_tilde r_tilde S_tilde m_tilde).2 j < 1 - t) →
      cv_moments qexp qlog samp lp Q_tilde r_tilde S_tilde m_tilde ldet_Q_tilde
          multiple_cv regulate_a max_a (some t)
        = ⟨sampleCovUnbiased samp, npColMean samp, false,
           fun i j => samp i j - npColMean samp j, lp⟩) ∧
    ((∀ j, 1 - t ≤ sampBelowFrac samp (cvRefMoments Q_tilde r_tilde S_tilde m_tilde).2 j ∧
           sampBelowFrac samp (cvRefMoments Q_tilde r_tilde S_tilde m_tilde).2 j ≤ t) →
      (cv_moments qexp qlog samp lp Q_tilde r_tilde S_tilde m_tilde ldet_Q_tilde
          multiple_cv regulate_a max_a (some t)).cv_used = true) := by
  have htne : ¬ t = 0 := by intro h; rw [h] at ht; norm_num at ht
  have htnl : ¬ t < 1 / 2 := by linarith
  constructor
  · intro hout
    have hflag : cvFallbackFlag samp
        (cvRefMoments Q_tilde r_tilde S_tilde m_tilde).2 (some t) = true := by
      simp only [cvFallbackFlag]
      rw [if_neg htne, if_neg htnl, decide_eq_true_eq]
      obtain ⟨j, hj⟩ := hout
      rcases hj with h | h
      · exact Or.inl ⟨j, h⟩
      · exact Or.inr ⟨j, h⟩
    simp only [cv_moments, hflag, if_true]
    rfl
  · intro hin
    have hflag : cvFallbackFlag samp
        (cvRefMoments Q_tilde r_tilde S_tilde m_tilde).2 (some t) = false := by
      simp only [cvFallbackFlag]
      rw [if_neg htne, if_neg htnl, decide_eq_false_iff_not]
      rintro (⟨j, hj⟩ | ⟨j, hj⟩)
      · exact absurd hj (by have := (hin j).2; linarith)
      · exact absurd hj (by have := (hin j).1; linarith)
    simp only [cv_moments, hflag, Bool.false_eq_true, if_false]

/-- On the two-sample input `[[0], [1]]` with reference mean `10`, every
sample lies strictly below the reference mean, so the below-mean fraction in
dimension 0 is 1. -/
theorem sampBelowFrac_example :
    sampBelowFrac (Matrix.of ![![(0 : ℚ)], ![1]])
      (cvRefMoments 1 0 (some 1) (some ![10])).2 0 = 1 := by
  unfold sampBelowFrac cvRefMoments
  rw [Finset.filter_true_of_mem]
  · simp
  · intro i _
    fin_cases i <;> norm_num

/-- Witness for C4: two samples both strictly below the reference mean, so
the below-mean fraction is `1 > 9/10`; the routine returns the plain sample
moments and the flag `False`. -/
theorem c4_cv_moments_threshold_fallback_witness :
    (1 / 2 : ℚ) ≤ 9 / 10 ∧
    (∃ j, sampBelowFrac (Matrix.of ![![(0 : ℚ)], ![1]])
        (cvRefMoments 1 0 (some 1) (some ![10])).2 j > 9 / 10 ∨
      sampBelowFrac (Matrix.of ![![(0 : ℚ)], ![1]])
        (cvRefMoments 1 0 (some 1) (some ![10])).2 j < 1 - 9 / 10) ∧
    cv_moments id id (Matrix.of ![![(0 : ℚ)], ![1]]) 0 1 0 (some 1)
        (some ![10]) (some 0) true none none (some (9 / 10))
      = ⟨sampleCovUnbiased (Matrix.of ![![(0 : ℚ)], ![1]]),
         npColMean (Matrix.of ![![(0 : ℚ)], ![1]]), false,
         fun i j => (Matrix.of ![![(0 : ℚ)], ![1]]) i j
           - npColMean (Matrix.of ![![(0 : ℚ)], ![1]]) j, 0⟩ := by
  have hex : ∃ j, sampBelowFrac (Matrix.of ![![(0 : ℚ)], ![1]])
      (cvRefMoments 1 0 (some 1) (some ![10])).2 j > 9 / 10 ∨
      sampBelowFrac (Matrix.of ![![(0 : ℚ)], ![1]])
        (cvRefMoments 1 0 (some 1) (some ![10])).2 j < 1 - 9 / 10 := by
    refine ⟨0, Or.inl ?_⟩
    rw [sampBelowFrac_example]
    norm_num
  exact ⟨by norm_num, hex,
    (c4_cv_moments_threshold_fallback id id (Matrix.of ![![(0 : ℚ)], ![1]]) 0 1 0
      (some 1) (some ![10]) (some 0) true none none (9 / 10) (by norm_num)).1 hex⟩

/-- C5 counterexample: on a concrete two-sample input that triggers the
balance fallback, `cv_moments` overwrites the caller's sample buffer
(`samp -= m_hat` in the source), so the final contents of `samp` differ from
the input. -/
theorem c5_cv_moments_mutates_samp_counterexample :
    (cv_moments id id (Matrix.of ![![(0 : ℚ)], ![1]]) 0 1 0 (some 1)
        (some ![10]) (some 0) true none none (some (9 / 10))).final_samp
      ≠ Matrix.of ![![(0 : ℚ)], ![1]] := by
  have hflag : cvFallbackFlag (Matrix.of ![![(0 : ℚ)], ![1]])
      (cvRefMoments 1 0 (some 1) (some ![10])).2 (some (9 / 10)) = true := by
    simp only [cvFallbackFlag]
    rw [if_neg (by norm_num), if_neg (by norm_num), decide_eq_true_eq]
    refine Or.inl ⟨0, ?_⟩
    rw [sampBelowFrac_example]
    norm_num
  intro hcon
  simp only [cv_moments, hflag, if_true] at hcon
  have h00 := congrFun (congrFun hcon 0) 0
  simp only [npColMean] at h00
  norm_num [Fin.sum_univ_succ] at h00

/-- C5 (amended): `cv_moments` never mutates the log-density buffer, and the
sample buffer is returned unchanged exactly on the control-variate path
(flag `True`); on the balance-fallback path the sample buffer is overwritten
with the deviations from the sample mean. -/
theorem c5_cv_moments_buffer_contents {n d : ℕ} (qexp qlog : ℚ → ℚ)
    (samp : Matrix (Fin n) (Fin d) ℚ) (lp : Fin n → ℚ)
    (Q_tilde : Matrix (Fin d) (Fin d) ℚ) (r_tilde : Fin d → ℚ)
    (S_tilde : Option (Matrix (Fin d) (Fin d) ℚ)) (m_tilde : Option (Fin d → ℚ))
    (ldet_Q_tilde : Option ℚ) (multiple_cv : Bool)
    (regulate_a max_a : Option ℚ) (m_treshold : Option ℚ) :
    (cv_moments qexp qlog samp lp Q_tilde r_tilde S_tilde m_tilde ldet_Q_tilde
        multiple_cv regulate_a max_a m_treshold).final_lp = lp ∧
    (cv_moments qexp qlog samp lp Q_tilde r_tilde S_tilde m_tilde ldet_Q_tilde
        multiple_cv regulate_a max_a m_treshold).final_samp =
      (if (cv_moments qexp qlog samp lp Q_tilde r_tilde S_tilde m_tilde
          ldet_Q_tilde multiple_cv regulate_a max_a m_treshold).cv_used then samp
       else fun i j => samp i j - npColMean samp j) := by
  cases hfb : cvFallbackFlag samp
    (cvRefMoments Q_tilde r_tilde S_tilde m_tilde).2 m_treshold
  · simp only [cv_moments, hfb, Bool.false_eq_true, if_false]
    exact ⟨by trivial, by trivial⟩
  · simp only [cv_moments, hfb, if_true]
    exact ⟨by trivial, by trivial⟩

/-- C4 counterexample: with threshold `t = 1/4` the interval `[1-t, t]` of
the claim is empty, so the balanced fraction `1/2` lies outside it; yet the
code (which rewrites `t` to `1 - t = 3/4`) keeps the control-variate path
and returns the flag `True`. -/
theorem c4_cv_moments_threshold_fallback_counterexample :
    ¬ ((1 - 1 / 4 : ℚ) ≤ sampBelowFrac (Matrix.of ![![(0 : ℚ)], ![1]])
          (cvRefMoments 1 0 (some 1) (some ![1])).2 0 ∧
        sampBelowFrac (Matrix.of ![![(0 : ℚ)], ![1]])
          (cvRefMoments 1 0 (some 1) (some ![1])).2 0 ≤ 1 / 4) ∧
    (cv_moments id id (Matrix.of ![![(0 : ℚ)], ![1]]) 0 1 0 (some 1)
        (some ![1]) (some 0) true none none (some (1 / 4))).cv_used = true := by
  have hfrac : sampBelowFrac (Matrix.of ![![(0 : ℚ)], ![1]])
      (cvRefMoments 1 0 (some 1) (some ![1])).2 0 = 1 / 2 := by
    unfold sampBelowFrac cvRefMoments
    rw [Finset.card_filter, Fin.sum_univ_two]
    norm_num [Matrix.of_apply, Matrix.cons_val_zero, Matrix.cons_val_one,
      Matrix.head_cons]
  have hflag : cvFallbackFlag (Matrix.of ![![(0 : ℚ)], ![1]])
      (cvRefMoments 1 0 (some 1) (some ![1])).2 (some (1 / 4)) = false := by
    simp only [cvFallbackFlag]
    rw [if_neg (by norm_num), if_pos (by norm_num : (1 / 4 : ℚ) < 1 / 2),
      decide_eq_false_iff_not]
    rintro (⟨j, hj⟩ | ⟨j, hj⟩)
    · have hj0 : j = 0 := Subsingleton.elim j 0
      rw [hj0, hfrac] at hj
      norm_num at hj
    · have hj0 : j = 0 := Subsingleton.elim j 0
      rw [hj0, hfrac] at hj
      norm_num at hj
  constructor
  · rw [hfrac]
    norm_num
  · simp only [cv_moments, hflag, Bool.false_eq_true, if_false]
